import Mathlib

/-!
# streamlist `utils.go`: disk usage, random numbers, atomic file writes, the secret store

A shallow embedding of `src/utils.go` and the properties its specification states.

Conventions of the embedding:

* Go's `int64`/`uint64` values are integers; every operation that can leave the
  range is followed by an explicit reduction modulo `2^64`.
* Go's `int` is taken to be 64 bits wide (`intBits`), as on amd64/arm64.
* The operating system is an explicit argument: the answer of `statfs`, the
  bytes of the entropy source, and for the file operations a file-system state
  (`FS`) together with the faults the environment injects into the calls whose
  error the code inspects.
-/

namespace Streamlist

/-! ## Errors -/

/-- Error values. `notExist` is the one recognised by `os.IsNotExist`, `exist` is
`os.ErrExist`, `badPattern` is the error of `TempFile` for a pattern holding a
path separator, `other` is any other system error, and `errorf ctx e` is
`fmt.Errorf(ctx + "%s", e)`. -/
inductive Err where
  | notExist : Err
  | exist : Err
  | badPattern : Err
  | other (code : Nat) : Err
  | errorf (ctx : String) (cause : Err) : Err
  deriving DecidableEq

/-! ## Machine integers -/

/-- Conversion to `uint64`: the residue modulo `2^64`. -/
def toUint64 (x : Int) : Int := x % 2 ^ 64

/-- Conversion to `int64`: the representative of `x` modulo `2^64` in
`[-2^63, 2^63)` (two's complement). -/
def toInt64 (x : Int) : Int := (x + 2 ^ 63) % 2 ^ 64 - 2 ^ 63

/-- Width of Go's `int` on the 64-bit targets. -/
def intBits : Nat := 64

/-- Conversion to `int`: the representative modulo `2^intBits` in
`[-2^(intBits-1), 2^(intBits-1))`. -/
def toInt (x : Int) : Int := (x + 2 ^ (intBits - 1)) % 2 ^ intBits - 2 ^ (intBits - 1)

/-- Multiplication of two `uint64` values. -/
def mulUint64 (a b : Int) : Int := toUint64 (a * b)

/-- Subtraction of two `uint64` values. -/
def subUint64 (a b : Int) : Int := toUint64 (a - b)

/-- Addition of two `int64` values. -/
def addInt64 (a b : Int) : Int := toInt64 (a + b)

/-- Division of an `int64` by a positive constant: Go's `/` truncates toward
zero, and the quotient by a positive constant cannot leave the `int64` range. -/
def divInt64 (a b : Int) : Int := Int.tdiv a b

/-- Membership in the `int64` range. -/
def isInt64 (x : Int) : Prop := -2 ^ 63 ≤ x ∧ x < 2 ^ 63

/-- Membership in the `uint64` range. -/
def isUint64 (x : Int) : Prop := 0 ≤ x ∧ x < 2 ^ 64

instance (x : Int) : Decidable (isInt64 x) := by unfold isInt64; infer_instance

instance (x : Int) : Decidable (isUint64 x) := by unfold isUint64; infer_instance

/-! ## DiskInfo -/

/-- The `DiskInfo` struct: two `int64` fields. -/
structure DiskInfo where
  free : Int
  used : Int
  deriving DecidableEq

namespace DiskInfo

/-- Method `func (d *DiskInfo) Total() int64 { return d.free + d.used }` -/
def Total (d : DiskInfo) : Int := addInt64 d.free d.used

/-- Method `func (d *DiskInfo) TotalMB() int64 { return d.Total() / 1024 / 1024 }` -/
def TotalMB (d : DiskInfo) : Int := divInt64 (divInt64 d.Total 1024) 1024

/-- Method `func (d *DiskInfo) TotalGB() int64 { return d.TotalMB() / 1024 }` -/
def TotalGB (d : DiskInfo) : Int := divInt64 d.TotalMB 1024

/-- Method `func (d *DiskInfo) Free() int64 { return d.free }` -/
def Free (d : DiskInfo) : Int := d.free

/-- Method `func (d *DiskInfo) FreeMB() int64 { return d.free / 1024 / 1024 }` -/
def FreeMB (d : DiskInfo) : Int := divInt64 (divInt64 d.free 1024) 1024

/-- Method `func (d *DiskInfo) FreeGB() int64 { return d.FreeMB() / 1024 }` -/
def FreeGB (d : DiskInfo) : Int := divInt64 d.FreeMB 1024

/-- Method `func (d *DiskInfo) Used() int64 { return d.used }` -/
def Used (d : DiskInfo) : Int := d.used

/-- Method `func (d *DiskInfo) UsedMB() int64 { return d.used / 1024 / 1024 }` -/
def UsedMB (d : DiskInfo) : Int := divInt64 (divInt64 d.used 1024) 1024

/-- Method `func (d *DiskInfo) UsedGB() int64 { return d.UsedMB() / 1024 }` -/
def UsedGB (d : DiskInfo) : Int := divInt64 d.UsedMB 1024

end DiskInfo

/-- The fields of `syscall.Statfs_t` that `NewDiskInfo` reads (linux/amd64
layout): `Bsize` is an `int64`, `Blocks` and `Bavail` are `uint64`. -/
structure Statfs_t where
  Bsize : Int
  Blocks : Int
  Bavail : Int
  deriving DecidableEq

/-- The field values are in the range of their Go types. -/
def Statfs_t.inRange (stat : Statfs_t) : Prop :=
  isInt64 stat.Bsize ∧ isUint64 stat.Blocks ∧ isUint64 stat.Bavail

instance (stat : Statfs_t) : Decidable stat.inRange := by
  unfold Statfs_t.inRange; infer_instance

/-- Function `NewDiskInfo`; `statfs` is the system call, answering for each path either
with an error or with the statistics of the file system. -/
def NewDiskInfo (statfs : String → Except Err Statfs_t) (path : String) :
    Except Err DiskInfo :=
  match statfs path with
  | .error err => .error (Err.errorf "diskinfo failed: " err)
  | .ok stat =>
    let free := mulUint64 stat.Bavail (toUint64 stat.Bsize)
    let used := subUint64 (mulUint64 stat.Blocks (toUint64 stat.Bsize)) free
    .ok ⟨toInt64 free, toInt64 used⟩

/-! ## RandomNumber -/

/-- The four bytes `rand.Read` stores into `b`. -/
structure Bytes4 where
  b0 : Fin 256
  b1 : Fin 256
  b2 : Fin 256
  b3 : Fin 256
  deriving DecidableEq

/-- The call `binary.LittleEndian.Uint32(b)`:
`uint32(b[0]) | uint32(b[1])<<8 | uint32(b[2])<<16 | uint32(b[3])<<24`. -/
def Uint32LE (b : Bytes4) : Nat :=
  b.b0.val ||| (b.b1.val <<< 8) ||| (b.b2.val <<< 16) ||| (b.b3.val <<< 24)

/-- Function `RandomNumber`; `randRead` is the outcome of `rand.Read(b)`: an error, or the
four bytes it filled in. The Go pair `(int, error)` is returned as a pair whose
second component is `none` for a nil error. -/
def RandomNumber (randRead : Except Err Bytes4) : Int × Option Err :=
  match randRead with
  | .error err => (0, some err)
  | .ok b => (toInt (Uint32LE b), none)

/-! ## Text -/

/-- A decimal digit, `0` to `9`. -/
def isDecDigit (c : Char) : Bool := decide (48 ≤ c.toNat) && decide (c.toNat ≤ 57)

/-- Predicate `unicode.IsSpace`: the white space property of Unicode. -/
def isSpace (c : Char) : Bool :=
  let n := c.toNat
  (decide (9 ≤ n) && decide (n ≤ 13)) || n == 32 || n == 133 || n == 160 || n == 5760 ||
    (decide (8192 ≤ n) && decide (n ≤ 8202)) || n == 8232 || n == 8233 || n == 8239 ||
    n == 8287 || n == 12288

/-- Function `strings.TrimSpace`: the string without its leading and trailing white space. -/
def TrimSpace (s : List Char) : List Char :=
  (s.dropWhile isSpace).rdropWhile isSpace

/-- The verb `%d` of `fmt.Sprintf`: the decimal digits of the integer, after a
minus sign if it is negative. -/
def formatDecimal (n : Int) : List Char :=
  if n < 0 then '-' :: Nat.toDigits 10 n.natAbs else Nat.toDigits 10 n.natAbs

/-- The format of the secret file: one or more decimal digits, then one newline,
and nothing else. -/
def wellFormed (content : List Char) : Bool :=
  content.getLast? == some '\n' && !content.dropLast.isEmpty &&
    content.dropLast.all isDecDigit

/-! ## File system -/

/-- A file name, as the pair of what `filepath.Dir` and `filepath.Base` return
for it. -/
structure Path where
  dir : List Char
  base : List Char
  deriving DecidableEq

/-- A regular file: its content and its mode (an `os.FileMode`). -/
structure File where
  content : List Char
  mode : Nat
  deriving DecidableEq

/-- The state of the file system: the file each name refers to, if any. -/
abbrev FS := Path → Option File

/-- The state in which `p` refers to `f` (to nothing if `f` is `none`). -/
def FS.set (fs : FS) (p : Path) (f : Option File) : FS :=
  fun q => if q = p then f else fs q

/-- Method `FileMode.Perm`: the nine permission bits. -/
def Perm (mode : Nat) : Nat := mode &&& 0o777

/-- The bits of a `FileMode` that `os.Chmod` hands to the system and that a later
`Stat` reports back: the permission bits and `ModeSetuid`, `ModeSetgid`,
`ModeSticky`. -/
def chmodBits (mode : Nat) : Nat := mode &&& (0o777 ||| 2 ^ 23 ||| 2 ^ 22 ||| 2 ^ 20)

/-- The split of a `TempFile` pattern at its last `*`, `none` if it has none. -/
def splitLastStar : List Char → Option (List Char × List Char)
  | [] => none
  | c :: cs =>
    match splitLastStar cs with
    | some (pre, suf) => some (c :: pre, suf)
    | none => if c = '*' then some ([], cs) else none

/-- The name `TempFile` builds from a pattern and its random string: the random
string replaces the last `*`, or is added at the end when there is none. -/
def tempName (pattern rnd : List Char) : List Char :=
  match splitLastStar pattern with
  | some (pre, suf) => pre ++ rnd ++ suf
  | none => pattern ++ rnd

/-- The call `ioutil.TempFile(dir, pattern)`. `rnd` is the random number whose decimal
digits go into the name and `fault` an injected failure. The file is opened with
`O_CREATE|O_EXCL` and mode `0600`: the call fails with `exist` if the name is
taken, and a pattern holding a path separator is refused. On success returns the
name of the new, empty file and the new state. -/
def TempFile (fs : FS) (dir pattern : List Char) (rnd : Nat) (fault : Option Err) :
    Except Err (Path × FS) :=
  if pattern.contains '/' then .error Err.badPattern
  else
    match fault with
    | some err => .error err
    | none =>
      let name : Path := ⟨dir, tempName pattern (Nat.toDigits 10 rnd)⟩
      match fs name with
      | some _ => .error Err.exist
      | none => .ok (name, fs.set name (some ⟨[], 0o600⟩))

/-- The call `f.Write(data)` on the file opened under the name `f`: the bytes are added at
the end. An injected failure `(k, err)` leaves the first `k` bytes written. -/
def Write (fs : FS) (f : Path) (data : List Char) (fault : Option (Nat × Err)) :
    Option Err × FS :=
  match fs f with
  | none => (some Err.notExist, fs)
  | some file =>
    match fault with
    | some (k, err) => (some err, fs.set f (some ⟨file.content ++ data.take k, file.mode⟩))
    | none => (none, fs.set f (some ⟨file.content ++ data, file.mode⟩))

/-- The call `f.Sync()`: no change of the visible state. -/
def Sync (fault : Option Err) : Option Err := fault

/-- The call `f.Close()`: no change of the visible state. -/
def Close (fault : Option Err) : Option Err := fault

/-- The call `os.Chmod(name, perm)`: the mode of the file becomes `chmodBits perm`. -/
def Chmod (fs : FS) (name : Path) (perm : Nat) (fault : Option Err) : Option Err × FS :=
  match fault with
  | some err => (some err, fs)
  | none =>
    match fs name with
    | none => (some Err.notExist, fs)
    | some file => (none, fs.set name (some ⟨file.content, chmodBits perm⟩))

/-- The call `os.Rename(oldname, newname)`: atomically makes `newname` refer to the file
of `oldname`, replacing what it referred to; renaming a name to itself does
nothing. A failed call changes nothing. -/
def Rename (fs : FS) (oldname newname : Path) (fault : Option Err) : Option Err × FS :=
  match fault with
  | some err => (some err, fs)
  | none =>
    match fs oldname with
    | none => (some Err.notExist, fs)
    | some file =>
      if oldname = newname then (none, fs)
      else (none, (fs.set newname (some file)).set oldname none)

/-- The call `os.Remove(name)` with its error discarded, as in the deferred call of
`Reset`: the name is unlinked if it exists. -/
def Remove (fs : FS) (name : Path) : FS := fs.set name none

/-- The call `os.Stat(name)`, reduced to its error: `notExist` exactly when no file has
the name. -/
def Stat (fs : FS) (name : Path) : Option Err :=
  match fs name with
  | some _ => none
  | none => some Err.notExist

/-- The test `os.IsNotExist(err)`. -/
def IsNotExist (err : Option Err) : Bool :=
  match err with
  | some Err.notExist => true
  | _ => false

/-- The call `ioutil.ReadFile(name)`: the whole content of the file. -/
def ReadFile (fs : FS) (name : Path) : Except Err (List Char) :=
  match fs name with
  | some file => .ok file.content
  | none => .error Err.notExist

/-! ## Overwrite -/

/-- What the environment decides during one call of `Overwrite`: the random
number of the temporary name and the failures injected into the six steps. -/
structure OverwriteEnv where
  tempRand : Nat
  tempFault : Option Err
  writeFault : Option (Nat × Err)
  syncFault : Option Err
  closeFault : Option Err
  chmodFault : Option Err
  renameFault : Option Err

/-- Function `Overwrite(filename, data, perm)`: the returned error (`none` for nil) and
the state of the file system afterwards. -/
def Overwrite (fs : FS) (filename : Path) (data : List Char) (perm : Nat)
    (env : OverwriteEnv) : Option Err × FS :=
  match TempFile fs filename.dir (filename.base ++ ".tmp".toList) env.tempRand
      env.tempFault with
  | .error err => (some err, fs)
  | .ok (f, fs1) =>
    match Write fs1 f data env.writeFault with
    | (some err, fs2) => (some err, fs2)
    | (none, fs2) =>
      match Sync env.syncFault with
      | some err => (some err, fs2)
      | none =>
        match Close env.closeFault with
        | some err => (some err, fs2)
        | none =>
          match Chmod fs2 f perm env.chmodFault with
          | (some err, fs3) => (some err, fs3)
          | (none, fs3) => Rename fs3 f filename env.renameFault

/-! ## Secret -/

/-- The `Secret` struct. -/
structure Secret where
  filename : Path
  deriving DecidableEq

/-- What the environment decides during one call of `Reset` (or of the `Reset`
inside `Get`): the outcome of `rand.Read`, the random number of the temporary
name, and the failures injected into `TempFile`, `Write` and `Rename`. -/
structure ResetEnv where
  randRead : Except Err Bytes4
  tempRand : Nat
  tempFault : Option Err
  writeFault : Option (Nat × Err)
  renameFault : Option Err

namespace Secret

/-- The name `TempFile` gives to the temporary file of `Reset`: in the directory
of the secret, `.tmpsecret` followed by the digits of the random number. -/
def tempPath (s : Secret) (env : ResetEnv) : Path :=
  ⟨s.filename.dir, tempName ".tmpsecret".toList (Nat.toDigits 10 env.tempRand)⟩

/-- Method `func (s Secret) Reset() error`: the returned error and the state afterwards.
The deferred `os.Remove(tmpfile.Name())` runs on every path after `TempFile`
has succeeded. -/
def Reset (s : Secret) (fs : FS) (env : ResetEnv) : Option Err × FS :=
  match RandomNumber env.randRead with
  | (_, some err) => (some err, fs)
  | (n, none) =>
    let content := formatDecimal n ++ ['\n']
    match TempFile fs s.filename.dir ".tmpsecret".toList env.tempRand env.tempFault with
    | .error err => (some err, fs)
    | .ok (tmpfile, fs1) =>
      match Write fs1 tmpfile content env.writeFault with
      | (some err, fs2) => (some err, Remove fs2 tmpfile)
      | (none, fs2) =>
        match Rename fs2 tmpfile s.filename env.renameFault with
        | (err, fs3) => (err, Remove fs3 tmpfile)

/-- Method `func (s Secret) Get() string`: `.error err` stands for `panic(err)`, `.ok`
carries the returned string and the state afterwards. -/
def Get (s : Secret) (fs : FS) (env : ResetEnv) : Except Err (List Char × FS) :=
  let created : Except Err FS :=
    if IsNotExist (Stat fs s.filename) then
      match s.Reset fs env with
      | (some err, _) => .error err
      | (none, fs1) => .ok fs1
    else .ok fs
  match created with
  | .error err => .error err
  | .ok fs1 =>
    match ReadFile fs1 s.filename with
    | .error err => .error err
    | .ok value => .ok (TrimSpace value, fs1)

/-- The file of the secret, if there is one, has the format of a secret file. -/
def fileOK (s : Secret) (fs : FS) : Prop :=
  ∀ f, fs s.filename = some f → wellFormed f.content = true

end Secret

/-- Function `NewSecret(filename)`: builds the `Secret` and calls `Get` on it, dropping
the value; a panic of `Get` is a panic of `NewSecret`. -/
def NewSecret (filename : Path) (fs : FS) (env : ResetEnv) : Except Err (Secret × FS) :=
  match (Secret.mk filename).Get fs env with
  | .error err => .error err
  | .ok (_, fs1) => .ok (Secret.mk filename, fs1)

/-- The calls of the secret store. -/
inductive Call where
  | newSecret : Call
  | get : Call
  | reset : Call
  deriving DecidableEq

/-- One call on the secret `s`: the state after it, or `none` if it panics. -/
def runCall (s : Secret) (fs : FS) (c : Call) (env : ResetEnv) : Option FS :=
  match c with
  | Call.newSecret =>
    match NewSecret s.filename fs env with
    | .error _ => none
    | .ok (_, fs1) => some fs1
  | Call.get =>
    match s.Get fs env with
    | .error _ => none
    | .ok (_, fs1) => some fs1
  | Call.reset => some (s.Reset fs env).2

/-- A sequence of calls on the secret `s`, each with what the environment decides
during it: the state after the last call, or `none` if one of them panics. -/
def runCalls (s : Secret) (fs : FS) : List (Call × ResetEnv) → Option FS
  | [] => some fs
  | (c, env) :: rest =>
    match runCall s fs c env with
    | none => none
    | some fs1 => runCalls s fs1 rest

/-! ## Concrete states and environments -/

/-- The file system without any file. -/
def emptyFS : FS := fun _ => none

/-- The secret at `/tmp/testsecret`. -/
def testSecret : Secret := ⟨⟨"/tmp".toList, "testsecret".toList⟩⟩

/-- A secret whose file name has the shape of the temporary names of `Reset`:
`/tmp/.tmpsecret123`. -/
def clashSecret : Secret := ⟨⟨"/tmp".toList, ".tmpsecret123".toList⟩⟩

/-- An environment without failures: the entropy source gives the bytes
`23 8a 9b e9`, that is 3919284771, and `TempFile` draws 123. -/
def calmEnv : ResetEnv := ⟨.ok ⟨35, 138, 155, 233⟩, 123, none, none, none⟩

/-- An environment whose entropy source fails. -/
def noEntropyEnv : ResetEnv := ⟨.error (Err.other 5), 123, none, none, none⟩

/-- An environment in which the write to the temporary file fails after one
byte. -/
def diskFullEnv : ResetEnv :=
  ⟨.ok ⟨35, 138, 155, 233⟩, 123, none, some (1, Err.other 28), none⟩

/-- A state in which `/tmp/testsecret` holds the text `hello`. -/
def helloFS : FS := emptyFS.set testSecret.filename (some ⟨"hello".toList, 0o644⟩)

/-- A state in which `/tmp/testsecret` holds `42` and a newline. -/
def fortyTwoFS : FS := emptyFS.set testSecret.filename (some ⟨"42\n".toList, 0o600⟩)

/-- An environment of `Overwrite` without failures, in which `TempFile` draws 7. -/
def calmOverwriteEnv : OverwriteEnv := ⟨7, none, none, none, none, none, none⟩

/-! # Theorems -/

/-! ## Integer lemmas -/

theorem toInt64_of_isInt64 {x : Int} (h : isInt64 x) : toInt64 x = x := by
  unfold isInt64 at h
  unfold toInt64
  omega

theorem toInt64_isInt64 (x : Int) : isInt64 (toInt64 x) := by
  unfold isInt64 toInt64
  omega

theorem toInt64_toUint64 (x : Int) : toInt64 (toUint64 x) = toInt64 x := by
  unfold toInt64 toUint64
  omega

theorem toUint64_mul_toUint64 (a b : Int) : toUint64 (a * toUint64 b) = toUint64 (a * b) := by
  unfold toUint64
  rw [Int.mul_emod, Int.emod_emod, ← Int.mul_emod]

theorem toUint64_sub_toUint64 (a b : Int) :
    toUint64 (toUint64 a - toUint64 b) = toUint64 (a - b) := by
  unfold toUint64
  omega

theorem toInt64_sub_toInt64 (a b : Int) : toInt64 (a - toInt64 b) = toInt64 (a - b) := by
  unfold toInt64
  omega

theorem tdiv_1024_twice (a : Int) : (a.tdiv 1024).tdiv 1024 = a.tdiv 1048576 := by
  rcases le_total 0 a with ha | ha
  · rw [Int.tdiv_eq_ediv ha (by decide), Int.tdiv_eq_ediv (by omega) (by decide),
      Int.tdiv_eq_ediv ha (by decide)]
    omega
  · obtain ⟨n, rfl⟩ : ∃ n : Int, a = -n := ⟨-a, by simp⟩
    have hn : 0 ≤ n := by omega
    rw [Int.neg_tdiv, Int.neg_tdiv, Int.neg_tdiv, Int.tdiv_eq_ediv hn (by decide),
      Int.tdiv_eq_ediv (by omega) (by decide), Int.tdiv_eq_ediv hn (by decide)]
    omega

theorem tdiv_1048576_1024 (a : Int) : (a.tdiv 1048576).tdiv 1024 = a.tdiv 1073741824 := by
  rcases le_total 0 a with ha | ha
  · rw [Int.tdiv_eq_ediv ha (by decide), Int.tdiv_eq_ediv (by omega) (by decide),
      Int.tdiv_eq_ediv ha (by decide)]
    omega
  · obtain ⟨n, rfl⟩ : ∃ n : Int, a = -n := ⟨-a, by simp⟩
    have hn : 0 ≤ n := by omega
    rw [Int.neg_tdiv, Int.neg_tdiv, Int.neg_tdiv, Int.tdiv_eq_ediv hn (by decide),
      Int.tdiv_eq_ediv (by omega) (by decide), Int.tdiv_eq_ediv hn (by decide)]
    omega

theorem lor_shiftLeft_of_lt (a b i : Nat) (h : b < 2 ^ i) : b ||| (a <<< i) = b + 2 ^ i * a := by
  rw [Nat.shiftLeft_eq, Nat.lor_comm, Nat.mul_comm, ← Nat.mul_add_lt_is_or h, Nat.add_comm]

theorem Uint32LE_eq (b : Bytes4) :
    Uint32LE b = b.b0.val + 256 * b.b1.val + 65536 * b.b2.val + 16777216 * b.b3.val := by
  have h0 := b.b0.isLt
  have h1 := b.b1.isLt
  have h2 := b.b2.isLt
  have h3 := b.b3.isLt
  unfold Uint32LE
  rw [lor_shiftLeft_of_lt _ _ 8 (by omega), lor_shiftLeft_of_lt _ _ 16 (by omega),
    lor_shiftLeft_of_lt _ _ 24 (by omega)]
  omega

theorem Uint32LE_lt (b : Bytes4) : Uint32LE b < 2 ^ 32 := by
  have h0 := b.b0.isLt
  have h1 := b.b1.isLt
  have h2 := b.b2.isLt
  have h3 := b.b3.isLt
  rw [Uint32LE_eq]
  omega

theorem toInt_of_lt {x : Nat} (h : x < 2 ^ 32) : toInt (x : Int) = (x : Int) := by
  unfold toInt intBits
  simp only [Nat.reduceSub]
  omega

theorem toInt64_mul_toUint64 (a b : Int) : toInt64 (a * toUint64 b) = toInt64 (a * b) := by
  rw [← toInt64_toUint64, toUint64_mul_toUint64, toInt64_toUint64]

theorem toInt64_sub_of_toUint64 (a b : Int) :
    toInt64 (toUint64 a - toUint64 b) = toInt64 (a - b) := by
  rw [← toInt64_toUint64, toUint64_sub_toUint64, toInt64_toUint64]

theorem NewDiskInfo_ok (statfs : String → Except Err Statfs_t) (path : String)
    (stat : Statfs_t) (hs : statfs path = .ok stat) :
    NewDiskInfo statfs path = .ok ⟨toInt64 (stat.Bavail * stat.Bsize),
      toInt64 (stat.Blocks * stat.Bsize - stat.Bavail * stat.Bsize)⟩ := by
  have h1 : toInt64 (mulUint64 stat.Bavail (toUint64 stat.Bsize))
      = toInt64 (stat.Bavail * stat.Bsize) := by
    rw [mulUint64, toInt64_toUint64, toInt64_mul_toUint64]
  have h2 : toInt64 (subUint64 (mulUint64 stat.Blocks (toUint64 stat.Bsize))
        (mulUint64 stat.Bavail (toUint64 stat.Bsize)))
      = toInt64 (stat.Blocks * stat.Bsize - stat.Bavail * stat.Bsize) := by
    rw [subUint64, toInt64_toUint64, mulUint64, mulUint64, toInt64_sub_of_toUint64,
      ← toInt64_toUint64,
      ← toUint64_sub_toUint64, toUint64_mul_toUint64, toUint64_mul_toUint64,
      toUint64_sub_toUint64, toInt64_toUint64]
  simp only [NewDiskInfo, hs, h1, h2]

/-! ## Disk usage and random numbers: the claims -/

/-- C6: for every four bytes of the entropy source `RandomNumber` returns their
little-endian unsigned 32-bit reading `b0 + 256*b1 + 65536*b2 + 16777216*b3`
with a nil error, a value `n` with `0 ≤ n < 2^32`; and when the entropy source
fails it returns `(0, err)` with the error of the source. -/
theorem RandomNumber_spec (b : Bytes4) (err : Err) :
    RandomNumber (.ok b)
        = (((b.b0.val + 256 * b.b1.val + 65536 * b.b2.val + 16777216 * b.b3.val : Nat) : Int),
            none)
      ∧ 0 ≤ (RandomNumber (.ok b)).1 ∧ (RandomNumber (.ok b)).1 < 2 ^ 32
      ∧ RandomNumber (.error err) = (0, some err) := by
  have hlt := Uint32LE_lt b
  have heq : RandomNumber (.ok b) = ((Uint32LE b : Int), none) := by
    simp only [RandomNumber, toInt_of_lt hlt]
  refine ⟨?_, ?_, ?_, rfl⟩
  · rw [heq, Uint32LE_eq]
  · rw [heq]
    exact Int.ofNat_nonneg _
  · rw [heq]
    show (Uint32LE b : Int) < 2 ^ 32
    exact_mod_cast hlt

/-- C7, as stated, fails: with block size 4096, 2^52 blocks in total and 2^51
available blocks the query succeeds and `Free()` is `-2^63`, not the product
`2^51 * 4096 = 2^63` of available blocks and block size. -/
theorem NewDiskInfo_not_exact :
    ¬ ∀ (statfs : String → Except Err Statfs_t) (path : String) (stat : Statfs_t),
        stat.inRange → statfs path = .ok stat →
        ∃ d, NewDiskInfo statfs path = .ok d ∧ d.Free = stat.Bavail * stat.Bsize
          ∧ d.Used = stat.Blocks * stat.Bsize - d.Free := by
  intro h
  obtain ⟨d, hd, hf, -⟩ :=
    h (fun _ => .ok ⟨4096, 2 ^ 52, 2 ^ 51⟩) "/" ⟨4096, 2 ^ 52, 2 ^ 51⟩ (by decide) rfl
  rw [NewDiskInfo_ok _ _ _ rfl] at hd
  cases hd
  revert hf
  decide

/-- C7, amended: after a successful query `Free()` and `Used()` are the `int64`
readings (reduction modulo `2^64` into `[-2^63, 2^63)`) of
`availableBlocks * blockSize` and of `totalBlocks * blockSize - Free()`, hence
equal to these integers whenever they lie in the `int64` range; and when the
query fails `NewDiskInfo` returns no `DiskInfo` and a non-nil error. -/
theorem NewDiskInfo_spec (statfs : String → Except Err Statfs_t) (path : String) :
    (∀ stat, statfs path = .ok stat →
      ∃ d, NewDiskInfo statfs path = .ok d
        ∧ d.Free = toInt64 (stat.Bavail * stat.Bsize)
        ∧ d.Used = toInt64 (stat.Blocks * stat.Bsize - d.Free)
        ∧ (isInt64 (stat.Bavail * stat.Bsize) → d.Free = stat.Bavail * stat.Bsize)
        ∧ (isInt64 (stat.Blocks * stat.Bsize - d.Free) →
            d.Used = stat.Blocks * stat.Bsize - d.Free))
      ∧ (∀ err, statfs path = .error err →
          NewDiskInfo statfs path = .error (Err.errorf "diskinfo failed: " err)) := by
  constructor
  · intro stat hs
    refine ⟨_, NewDiskInfo_ok statfs path stat hs, rfl, ?_, ?_, ?_⟩
    · simp only [DiskInfo.Used, DiskInfo.Free, toInt64_sub_toInt64]
    · intro h
      exact toInt64_of_isInt64 h
    · intro h
      simp only [DiskInfo.Used, DiskInfo.Free] at h ⊢
      rw [← toInt64_sub_toInt64]
      exact toInt64_of_isInt64 h
  · intro err hs
    simp only [NewDiskInfo, hs]

/-- C7, amended, at a concrete answer: block size 4096, 1000 blocks, 250 of them
available give `Free() = 1024000` and `Used() = 3072000`; a failed query gives
an error. -/
theorem NewDiskInfo_spec_witness :
    (∃ d, NewDiskInfo (fun _ => .ok ⟨4096, 1000, 250⟩) "/" = .ok d
        ∧ d.Free = 250 * 4096 ∧ d.Used = 1000 * 4096 - d.Free)
      ∧ NewDiskInfo (fun _ => .error Err.notExist) "/nowhere"
          = .error (Err.errorf "diskinfo failed: " Err.notExist) := by
  obtain ⟨d, hd, -, -, hf, hu⟩ :=
    (NewDiskInfo_spec (fun _ => .ok ⟨4096, 1000, 250⟩) "/").1 ⟨4096, 1000, 250⟩ rfl
  have hf1 := hf (by decide)
  have hu1 := hu (by rw [hf1]; decide)
  exact ⟨⟨d, hd, hf1, hu1⟩,
    (NewDiskInfo_spec (fun _ => .error Err.notExist) "/nowhere").2 Err.notExist rfl⟩

/-- C8, as stated, fails: a file system that reports more available blocks than
blocks in total (block size 4096, 1000 blocks, 2000 available) yields
`Used() = -4096000 < 0`. -/
theorem NewDiskInfo_negative_used :
    ¬ ∀ (statfs : String → Except Err Statfs_t) (path : String) (stat : Statfs_t)
        (d : DiskInfo), stat.inRange → statfs path = .ok stat →
        NewDiskInfo statfs path = .ok d → 0 ≤ d.Free ∧ 0 ≤ d.Used := by
  intro h
  have h1 := h (fun _ => .ok ⟨4096, 1000, 2000⟩) "/" ⟨4096, 1000, 2000⟩ _ (by decide) rfl
    (NewDiskInfo_ok _ _ _ rfl)
  revert h1
  decide

/-- C8, amended: when the file system reports a non-negative block size, no more
available blocks than blocks in total, and a total size `totalBlocks * blockSize`
below `2^63` bytes, the `DiskInfo` of a successful `NewDiskInfo` has
`Free() ≥ 0` and `Used() ≥ 0`. -/
theorem NewDiskInfo_nonneg (statfs : String → Except Err Statfs_t) (path : String)
    (stat : Statfs_t) (d : DiskInfo) (hs : statfs path = .ok stat)
    (hd : NewDiskInfo statfs path = .ok d)
    (hb : 0 ≤ stat.Bsize) (ha : 0 ≤ stat.Bavail) (hab : stat.Bavail ≤ stat.Blocks)
    (ht : stat.Blocks * stat.Bsize < 2 ^ 63) :
    0 ≤ d.Free ∧ 0 ≤ d.Used := by
  rw [NewDiskInfo_ok statfs path stat hs] at hd
  cases hd
  have h1 : stat.Bavail * stat.Bsize ≤ stat.Blocks * stat.Bsize :=
    Int.mul_le_mul_of_nonneg_right hab hb
  have h0 : 0 ≤ stat.Bavail * stat.Bsize := Int.mul_nonneg ha hb
  simp only [DiskInfo.Free, DiskInfo.Used]
  rw [toInt64_of_isInt64 (by unfold isInt64; omega),
    toInt64_of_isInt64 (by unfold isInt64; omega)]
  omega

/-- C8, amended, at a concrete answer: block size 4096, 1000 blocks, 250 of them
available. -/
theorem NewDiskInfo_nonneg_witness :
    0 ≤ (DiskInfo.mk (250 * 4096) (750 * 4096)).Free
      ∧ 0 ≤ (DiskInfo.mk (250 * 4096) (750 * 4096)).Used :=
  NewDiskInfo_nonneg (fun _ => .ok ⟨4096, 1000, 250⟩) "/" ⟨4096, 1000, 250⟩ _ rfl rfl
    (by decide) (by decide) (by decide) (by decide)

/-- C9: for every `DiskInfo` value, `d.Total() == d.Free() + d.Used()` holds in
Go's `int64` arithmetic, sums that wrap around included: `Total()` is the `int64`
sum of `Free()` and `Used()`, an `int64` congruent to their integer sum modulo
`2^64`; `Free()` and `Used()` return the fields unchanged. -/
theorem Total_eq_Free_add_Used (d : DiskInfo) :
    d.Total = addInt64 d.Free d.Used ∧ isInt64 d.Total
      ∧ (d.Total - (d.Free + d.Used)) % 2 ^ 64 = 0
      ∧ d.Free = d.free ∧ d.Used = d.used := by
  refine ⟨rfl, toInt64_isInt64 _, ?_, rfl, rfl⟩
  simp only [DiskInfo.Total, DiskInfo.Free, DiskInfo.Used, addInt64, toInt64]
  omega

/-- C10: for every `DiskInfo` value the megabyte accessors are the byte figures
divided by `1024^2 = 1048576` and the gigabyte accessors the byte figures divided
by `1024^3 = 1073741824`, under truncating division, although the code divides
by 1024 repeatedly. -/
theorem MB_GB_accessors (d : DiskInfo) :
    d.FreeMB = Int.tdiv d.Free 1048576 ∧ d.UsedMB = Int.tdiv d.Used 1048576
      ∧ d.TotalMB = Int.tdiv d.Total 1048576
      ∧ d.FreeGB = Int.tdiv d.Free 1073741824 ∧ d.UsedGB = Int.tdiv d.Used 1073741824
      ∧ d.TotalGB = Int.tdiv d.Total 1073741824 := by
  simp only [DiskInfo.FreeMB, DiskInfo.UsedMB, DiskInfo.TotalMB, DiskInfo.FreeGB,
    DiskInfo.UsedGB, DiskInfo.TotalGB, DiskInfo.Free, DiskInfo.Used, divInt64,
    tdiv_1024_twice, tdiv_1048576_1024, and_self]

/-! ## File-system lemmas -/

theorem FS.set_same (fs : FS) (p : Path) (f : Option File) : (fs.set p f) p = f := by
  simp [FS.set]

theorem FS.set_other (fs : FS) {p q : Path} (f : Option File) (h : q ≠ p) :
    (fs.set p f) q = fs q := by
  simp [FS.set, h]

theorem splitLastStar_length {pattern pre suf : List Char}
    (h : splitLastStar pattern = some (pre, suf)) :
    pattern.length = pre.length + suf.length + 1 := by
  induction pattern generalizing pre suf with
  | nil => simp [splitLastStar] at h
  | cons c cs ih =>
    unfold splitLastStar at h
    cases hcs : splitLastStar cs with
    | none =>
      rw [hcs] at h
      by_cases hc : c = '*'
      · simp [hc] at h
        obtain ⟨rfl, rfl⟩ := h
        simp
      · simp [hc] at h
    | some r =>
      obtain ⟨p1, s1⟩ := r
      rw [hcs] at h
      simp at h
      obtain ⟨rfl, rfl⟩ := h
      have := ih hcs
      simp [this]
      omega

theorem tempName_length (pattern rnd : List Char) :
    pattern.length + rnd.length ≤ (tempName pattern rnd).length + 1 := by
  unfold tempName
  cases h : splitLastStar pattern with
  | none => simp
  | some r =>
    obtain ⟨p1, s1⟩ := r
    have := splitLastStar_length h
    simp
    omega

/-- The temporary file of `Overwrite` never has the name of the target. -/
theorem tempName_tmp_ne (base rnd : List Char) :
    tempName (base ++ ".tmp".toList) rnd ≠ base := by
  intro h
  have h1 := tempName_length (base ++ ".tmp".toList) rnd
  rw [h] at h1
  simp at h1
  omega

theorem TempFile_ok {fs : FS} {dir pattern : List Char} {rnd : Nat} {fault : Option Err}
    {p : Path} {fs1 : FS} (h : TempFile fs dir pattern rnd fault = .ok (p, fs1)) :
    p = ⟨dir, tempName pattern (Nat.toDigits 10 rnd)⟩ ∧ fs p = none
      ∧ fs1 = fs.set p (some ⟨[], 0o600⟩) ∧ fault = none := by
  unfold TempFile at h
  split at h
  · cases h
  · cases fault with
    | some e => cases h
    | none =>
      simp only at h
      split at h
      · cases h
      · rename_i hfresh
        cases h
        exact ⟨rfl, hfresh, rfl, rfl⟩

theorem Perm_chmodBits (perm : Nat) : Perm (chmodBits perm) = Perm perm := by
  unfold Perm chmodBits
  rw [Nat.land_assoc]
  rfl

/-! ## Overwrite: the claim -/

/-- C1: for every file-system state, target, content, mode and every choice of
failing steps: if `Overwrite` returns nil, the target holds exactly the bytes
passed in, its permission bits are those of the requested mode, and no step
failed; if `Overwrite` returns an error, the target (existence, content, mode)
is as before the call. -/
theorem Overwrite_spec (fs : FS) (filename : Path) (data : List Char) (perm : Nat)
    (env : OverwriteEnv) :
    match Overwrite fs filename data perm env with
    | (none, fs1) =>
        (∃ f, fs1 filename = some f ∧ f.content = data ∧ Perm f.mode = Perm perm)
          ∧ env.tempFault = none ∧ env.writeFault = none ∧ env.syncFault = none
          ∧ env.closeFault = none ∧ env.chmodFault = none ∧ env.renameFault = none
    | (some _, fs1) => fs1 filename = fs filename := by
  unfold Overwrite
  cases hT : TempFile fs filename.dir (filename.base ++ ".tmp".toList) env.tempRand
      env.tempFault with
  | error e => simp
  | ok r =>
    obtain ⟨p, fs1⟩ := r
    obtain ⟨hp, hfresh, hfs1, hfault⟩ := TempFile_ok hT
    have hne : filename ≠ p := by
      intro h
      rw [hp] at h
      have := congrArg Path.base h
      exact tempName_tmp_ne _ _ this.symm
    have hw : fs1 p = some ⟨[], 0o600⟩ := by rw [hfs1]; exact FS.set_same _ _ _
    have h1 : fs1 filename = fs filename := by rw [hfs1]; exact FS.set_other _ _ hne
    simp only [Write, hw]
    cases hwf : env.writeFault with
    | some ke =>
      obtain ⟨k, e⟩ := ke
      simp only [FS.set_other _ _ hne, h1]
    | none =>
      simp only [Sync, Close, List.nil_append]
      cases hsf : env.syncFault with
      | some e => simp only [FS.set_other _ _ hne, h1]
      | none =>
        cases hcf : env.closeFault with
        | some e => simp only [FS.set_other _ _ hne, h1]
        | none =>
          simp only [Chmod]
          cases hmf : env.chmodFault with
          | some e => simp only [FS.set_other _ _ hne, h1]
          | none =>
            simp only [FS.set_same, Rename]
            cases hrf : env.renameFault with
            | some e => simp only [FS.set_other _ _ hne, h1]
            | none =>
              simp only [FS.set_same, if_neg (Ne.symm hne)]
              refine ⟨⟨⟨data, chmodBits perm⟩, ?_, rfl, Perm_chmodBits perm⟩, hfault, ?_⟩
              · rw [FS.set_other _ _ hne, FS.set_same]
              · simp

/-- On the empty file system, without failures, `Overwrite` of `/tmp/testsecret`
with the text `abc` and mode `0644` returns nil and leaves the file with
exactly that content and mode. -/
theorem Overwrite_example :
    (Overwrite emptyFS testSecret.filename "abc".toList 0o644 calmOverwriteEnv).1 = none
      ∧ (Overwrite emptyFS testSecret.filename "abc".toList 0o644 calmOverwriteEnv).2
          testSecret.filename = some ⟨"abc".toList, 0o644⟩ := by
  decide

/-! ## Text lemmas -/

theorem isDecDigit_digitChar (k : Nat) (h : k < 10) : isDecDigit (Nat.digitChar k) = true := by
  revert k
  decide

theorem toDigitsCore_all (fuel n : Nat) (ds : List Char)
    (h : ∀ c ∈ ds, isDecDigit c = true) :
    ∀ c ∈ Nat.toDigitsCore 10 fuel n ds, isDecDigit c = true := by
  induction fuel generalizing n ds with
  | zero => simpa [Nat.toDigitsCore] using h
  | succ fuel ih =>
    have hd : isDecDigit (Nat.digitChar (n % 10)) = true :=
      isDecDigit_digitChar _ (Nat.mod_lt _ (by decide))
    have hcons : ∀ c ∈ Nat.digitChar (n % 10) :: ds, isDecDigit c = true := by
      intro c hc
      rcases List.mem_cons.mp hc with rfl | hc
      · exact hd
      · exact h c hc
    unfold Nat.toDigitsCore
    simp only
    split
    · exact hcons
    · exact ih _ _ hcons

theorem toDigitsCore_ne_nil (fuel n : Nat) (ds : List Char) (h : ds ≠ [] ∨ 0 < fuel) :
    Nat.toDigitsCore 10 fuel n ds ≠ [] := by
  induction fuel generalizing n ds with
  | zero =>
    rcases h with h | h
    · simpa [Nat.toDigitsCore] using h
    · omega
  | succ fuel ih =>
    unfold Nat.toDigitsCore
    simp only
    split
    · simp
    · exact ih _ _ (Or.inl (by simp))

theorem toDigits_all (n : Nat) : ∀ c ∈ Nat.toDigits 10 n, isDecDigit c = true :=
  toDigitsCore_all _ _ _ (by simp)

theorem toDigits_ne_nil (n : Nat) : Nat.toDigits 10 n ≠ [] :=
  toDigitsCore_ne_nil _ _ _ (Or.inr (Nat.succ_pos n))

theorem isSpace_of_isDecDigit {c : Char} (h : isDecDigit c = true) : isSpace c = false := by
  unfold isDecDigit at h
  unfold isSpace
  simp only [Bool.and_eq_true, decide_eq_true_eq] at h
  simp only [Bool.or_eq_false_iff, Bool.and_eq_false_iff, decide_eq_false_iff_not,
    beq_eq_false_iff_ne, ne_eq]
  omega

theorem TrimSpace_digits_newline (ds : List Char) (hne : ds ≠ [])
    (hall : ∀ c ∈ ds, isDecDigit c = true) : TrimSpace (ds ++ ['\n']) = ds := by
  unfold TrimSpace
  have h1 : (ds ++ ['\n']).dropWhile isSpace = ds ++ ['\n'] := by
    cases ds with
    | nil => exact absurd rfl hne
    | cons d rest =>
      have : isSpace d = false := isSpace_of_isDecDigit (hall d (List.mem_cons_self _ _))
      simp [List.dropWhile, this]
  rw [h1, List.rdropWhile_concat_pos _ _ _ (by decide)]
  obtain ⟨init, last, rfl⟩ : ∃ init last, ds = init ++ [last] := by
    rcases List.eq_nil_or_concat ds with h | ⟨init, last, h⟩
    · exact absurd h hne
    · exact ⟨init, last, by rw [h, List.concat_eq_append]⟩
  have : isSpace last = false := isSpace_of_isDecDigit (hall last (by simp))
  exact List.rdropWhile_concat_neg _ _ _ (by simp [this])

theorem wellFormed_digits_newline (ds : List Char) (hne : ds ≠ [])
    (hall : ∀ c ∈ ds, isDecDigit c = true) : wellFormed (ds ++ ['\n']) = true := by
  unfold wellFormed
  have h : (ds ++ ['\n']).dropLast = ds := List.dropLast_concat
  rw [h]
  have h2 : ds.isEmpty = false := by
    cases ds with
    | nil => exact absurd rfl hne
    | cons _ _ => rfl
  have h3 : ds.all isDecDigit = true := List.all_eq_true.mpr hall
  simp [h2, h3]

theorem formatDecimal_of_nonneg {n : Int} (h : 0 ≤ n) :
    formatDecimal n = Nat.toDigits 10 n.natAbs := by
  unfold formatDecimal
  rw [if_neg (by omega)]

theorem RandomNumber_ok (b : Bytes4) :
    RandomNumber (.ok b) = ((Uint32LE b : Int), none) := by
  simp only [RandomNumber, toInt_of_lt (Uint32LE_lt b)]

theorem formatDecimal_Uint32LE (b : Bytes4) :
    formatDecimal (Uint32LE b : Int) = Nat.toDigits 10 (Uint32LE b) := by
  rw [formatDecimal_of_nonneg (Int.ofNat_nonneg _)]
  rfl

/-! ## Secret: lemmas -/

theorem Reset_cases (s : Secret) (fs : FS) (env : ResetEnv) :
    ((s.Reset fs env).1 ≠ none ∧ (s.Reset fs env).2 s.filename = fs s.filename)
      ∨ ((s.Reset fs env).1 = none
          ∧ ∃ b, env.randRead = .ok b ∧ env.tempFault = none ∧ env.writeFault = none
            ∧ env.renameFault = none ∧ fs (s.tempPath env) = none
            ∧ (s.tempPath env ≠ s.filename →
                (s.Reset fs env).2 s.filename
                  = some ⟨formatDecimal (Uint32LE b) ++ ['\n'], 0o600⟩)
            ∧ (s.tempPath env = s.filename → (s.Reset fs env).2 s.filename = none)) := by
  unfold Secret.Reset
  cases hr : env.randRead with
  | error e => left; simp [RandomNumber]
  | ok b =>
    rw [RandomNumber_ok]
    simp only
    cases hT : TempFile fs s.filename.dir ".tmpsecret".toList env.tempRand env.tempFault with
    | error e => left; simp
    | ok r =>
      obtain ⟨p, fs1⟩ := r
      obtain ⟨hp, hfresh, hfs1, hfault⟩ := TempFile_ok hT
      have hpe : p = s.tempPath env := hp
      have hw : fs1 p = some ⟨[], 0o600⟩ := by rw [hfs1]; exact FS.set_same _ _ _
      have hrm : ∀ (g : FS), (∀ q, q ≠ p → g q = fs q) →
          (Remove g p) s.filename = fs s.filename := by
        intro g hg
        unfold Remove
        by_cases hq : s.filename = p
        · rw [hq, FS.set_same, hfresh]
        · rw [FS.set_other _ _ hq, hg _ hq]
      simp only [Write, hw, List.nil_append]
      cases hwf : env.writeFault with
      | some ke =>
        left
        obtain ⟨k, e⟩ := ke
        refine ⟨by simp, hrm _ ?_⟩
        intro q hq
        rw [FS.set_other _ _ hq, hfs1, FS.set_other _ _ hq]
      | none =>
        simp only [Rename, FS.set_same]
        cases hrf : env.renameFault with
        | some e =>
          left
          simp only
          refine ⟨by simp, hrm _ ?_⟩
          intro q hq
          rw [FS.set_other _ _ hq, hfs1, FS.set_other _ _ hq]
        | none =>
          right
          by_cases hq : p = s.filename
          · simp only [if_pos hq]
            refine ⟨trivial, b, rfl, hfault, trivial, trivial, hpe ▸ hfresh, ?_, ?_⟩
            · intro h
              exact absurd (hpe ▸ hq) h
            · intro _
              rw [← hq]
              exact FS.set_same _ _ _
          · simp only [if_neg hq]
            refine ⟨trivial, b, rfl, hfault, trivial, trivial, hpe ▸ hfresh, ?_, ?_⟩
            · intro _
              unfold Remove
              rw [FS.set_other _ _ (Ne.symm hq), FS.set_other _ _ (Ne.symm hq), FS.set_same]
            · intro h
              exact absurd (hpe ▸ h) hq

theorem Get_of_present (s : Secret) (fs : FS) (env : ResetEnv) (f : File)
    (h : fs s.filename = some f) : s.Get fs env = .ok (TrimSpace f.content, fs) := by
  simp [Secret.Get, Stat, IsNotExist, ReadFile, h]

theorem Get_of_absent (s : Secret) (fs : FS) (env : ResetEnv) (h : fs s.filename = none) :
    s.Get fs env =
      match s.Reset fs env with
      | (some err, _) => .error err
      | (none, fs1) =>
        match fs1 s.filename with
        | some file => .ok (TrimSpace file.content, fs1)
        | none => .error Err.notExist := by
  simp only [Secret.Get, Stat, IsNotExist, ReadFile, h, if_true]
  rcases hR : s.Reset fs env with ⟨_ | e, fs1⟩
  · simp only
    cases fs1 s.filename <;> rfl
  · rfl

theorem Get_ok_present {s : Secret} {fs fs1 : FS} {env : ResetEnv} {v : List Char}
    (h : s.Get fs env = .ok (v, fs1)) :
    ∃ f, fs1 s.filename = some f ∧ v = TrimSpace f.content := by
  cases hf : fs s.filename with
  | some f =>
    rw [Get_of_present s fs env f hf] at h
    cases h
    exact ⟨f, hf, rfl⟩
  | none =>
    rw [Get_of_absent s fs env hf] at h
    rcases hR : s.Reset fs env with ⟨_ | e, fs2⟩
    · rw [hR] at h
      simp only at h
      cases hf2 : fs2 s.filename with
      | none => rw [hf2] at h; cases h
      | some f =>
        rw [hf2] at h
        cases h
        exact ⟨f, hf2, rfl⟩
    · rw [hR] at h
      cases h

/-! ## Secret: the claims -/

/-- C2: `Reset` always returns (it has no panic). Whenever it returns an error,
the file at `s.filename` is as before the call: absent if it was absent, the
same file if it was present. It returns nil only if none of random generation,
temp-file creation, write and rename failed; so a failure of any of these steps
yields a non-nil error and an unchanged secret file. -/
theorem Reset_failure_spec (s : Secret) (fs : FS) (env : ResetEnv) :
    match s.Reset fs env with
    | (some _, fs1) => fs1 s.filename = fs s.filename
    | (none, _) =>
        (∃ b, env.randRead = .ok b) ∧ env.tempFault = none ∧ env.writeFault = none
          ∧ env.renameFault = none := by
  rcases Reset_cases s fs env with ⟨h1, h2⟩ | ⟨h1, b, hb, ht, hw, hr, -⟩
  · rcases hR : s.Reset fs env with ⟨_ | e, fs1⟩
    · rw [hR] at h1
      exact absurd rfl h1
    · rw [hR] at h2
      exact h2
  · rcases hR : s.Reset fs env with ⟨_ | e, fs1⟩
    · exact ⟨⟨b, hb⟩, ht, hw, hr⟩
    · rw [hR] at h1
      cases h1

/-- When the temporary file of `Reset` does not get the name of the secret
itself, `Get` on an absent secret whose `Reset` succeeds with the bytes `b` leaves
the file with the decimal digits of their value and a newline, and returns these
digits: a non-empty string of decimal digits. -/
theorem Get_creates_secret (s : Secret) (fs : FS) (env : ResetEnv) (b : Bytes4)
    (habs : fs s.filename = none) (hR : (s.Reset fs env).1 = none)
    (hb : env.randRead = .ok b) (hne : s.tempPath env ≠ s.filename) :
    ∃ fs1, s.Get fs env = .ok (Nat.toDigits 10 (Uint32LE b), fs1)
      ∧ fs1 s.filename = some ⟨Nat.toDigits 10 (Uint32LE b) ++ ['\n'], 0o600⟩
      ∧ Nat.toDigits 10 (Uint32LE b) ≠ []
      ∧ ∀ c ∈ Nat.toDigits 10 (Uint32LE b), isDecDigit c = true := by
  rcases Reset_cases s fs env with ⟨h1, -⟩ | ⟨-, b1, hb1, -, -, -, -, hfile, -⟩
  · exact absurd hR h1
  · have hbb : b1 = b := by
      rw [hb] at hb1
      cases hb1
      rfl
    subst hbb
    have hfile1 := hfile hne
    rw [formatDecimal_Uint32LE] at hfile1
    refine ⟨(s.Reset fs env).2, ?_, hfile1, toDigits_ne_nil _, toDigits_all _⟩
    rw [Get_of_absent s fs env habs]
    rcases hRR : s.Reset fs env with ⟨_ | e, fs1⟩
    · rw [hRR] at hfile1
      have hfile2 : fs1 s.filename
          = some ⟨Nat.toDigits 10 (Uint32LE b1) ++ ['\n'], 0o600⟩ := hfile1
      simp only [hfile2, TrimSpace_digits_newline _ (toDigits_ne_nil _) (toDigits_all _)]
    · rw [hRR] at hR
      cases hR

/-- C3 fails on the code: the file `/tmp/.tmpsecret123` does not exist, `TempFile`
draws 123 and so creates the temporary file under that very name, the rename of
the file to itself succeeds, `Reset` returns nil after its deferred `Remove` has
deleted the file, and `Get` panics on reading it. -/
theorem Get_panics_on_temp_name_clash :
    emptyFS clashSecret.filename = none
      ∧ clashSecret.tempPath calmEnv = clashSecret.filename
      ∧ (clashSecret.Reset emptyFS calmEnv).1 = none
      ∧ (clashSecret.Reset emptyFS calmEnv).2 clashSecret.filename = none
      ∧ clashSecret.Get emptyFS calmEnv = .error Err.notExist :=
  ⟨rfl, by decide, by decide, by decide, rfl⟩

/-- C4: if a call of `Get` returns the value `v`, leaving the state `fs1`, then a
call of `Get` that follows immediately returns the same `v`, whatever the
environment holds ready for it (no random number is drawn), and leaves the state
`fs1` as it is. -/
theorem Get_idempotent (s : Secret) (fs fs1 : FS) (env : ResetEnv) (v : List Char)
    (h : s.Get fs env = .ok (v, fs1)) (env2 : ResetEnv) :
    s.Get fs1 env2 = .ok (v, fs1) := by
  obtain ⟨f, hf, hv⟩ := Get_ok_present h
  rw [Get_of_present s fs1 env2 f hf, hv]

/-- C4 at a concrete input: `Get` creates `/tmp/testsecret` with 3919284771 and
returns it; a second `Get`, even in an environment whose entropy source fails,
returns the same value and leaves the state unchanged. -/
theorem Get_idempotent_witness :
    testSecret.Get emptyFS calmEnv
        = .ok ("3919284771".toList, (testSecret.Reset emptyFS calmEnv).2)
      ∧ testSecret.Get (testSecret.Reset emptyFS calmEnv).2 noEntropyEnv
        = .ok ("3919284771".toList, (testSecret.Reset emptyFS calmEnv).2) :=
  ⟨rfl, Get_idempotent testSecret emptyFS _ calmEnv _ rfl noEntropyEnv⟩

theorem Get_state {s : Secret} {fs fs1 : FS} {env : ResetEnv} {v : List Char}
    (h : s.Get fs env = .ok (v, fs1)) : fs1 = fs ∨ fs1 = (s.Reset fs env).2 := by
  cases hf : fs s.filename with
  | some f =>
    rw [Get_of_present s fs env f hf] at h
    cases h
    exact Or.inl rfl
  | none =>
    rw [Get_of_absent s fs env hf] at h
    rcases hR : s.Reset fs env with ⟨_ | e, fs2⟩
    · rw [hR] at h
      simp only at h
      cases hf2 : fs2 s.filename with
      | none => rw [hf2] at h; cases h
      | some f =>
        rw [hf2] at h
        cases h
        exact Or.inr rfl
    · rw [hR] at h
      cases h

theorem Reset_fileOK (s : Secret) (fs : FS) (env : ResetEnv) (h : s.fileOK fs) :
    s.fileOK (s.Reset fs env).2 := by
  intro f hf
  rcases Reset_cases s fs env with ⟨-, h2⟩ | ⟨-, b, -, -, -, -, -, hne, heq⟩
  · rw [h2] at hf
    exact h f hf
  · by_cases hq : s.tempPath env = s.filename
    · rw [heq hq] at hf
      cases hf
    · rw [hne hq] at hf
      cases hf
      rw [formatDecimal_Uint32LE]
      exact wellFormed_digits_newline _ (toDigits_ne_nil _) (toDigits_all _)

theorem runCall_fileOK {s : Secret} {fs fs1 : FS} {c : Call} {env : ResetEnv}
    (h : s.fileOK fs) (hrun : runCall s fs c env = some fs1) :
    s.fileOK fs1 ∧ (c ≠ Call.reset → ∃ f, fs1 s.filename = some f) := by
  have hget : ∀ v, s.Get fs env = .ok (v, fs1) →
      s.fileOK fs1 ∧ (c ≠ Call.reset → ∃ f, fs1 s.filename = some f) := by
    intro v hv
    obtain ⟨f, hf, -⟩ := Get_ok_present hv
    refine ⟨?_, fun _ => ⟨f, hf⟩⟩
    rcases Get_state hv with h1 | h1
    · rw [h1]
      exact h
    · rw [h1]
      exact Reset_fileOK s fs env h
  cases c with
  | newSecret =>
    simp only [runCall, NewSecret] at hrun
    rcases hG : s.Get fs env with e | ⟨v, fs2⟩
    · rw [hG] at hrun
      cases hrun
    · rw [hG] at hrun
      cases hrun
      exact hget v hG
  | get =>
    simp only [runCall] at hrun
    rcases hG : s.Get fs env with e | ⟨v, fs2⟩
    · rw [hG] at hrun
      cases hrun
    · rw [hG] at hrun
      cases hrun
      exact hget v hG
  | reset =>
    simp only [runCall] at hrun
    cases hrun
    exact ⟨Reset_fileOK s fs env h, fun hc => absurd rfl hc⟩

theorem runCalls_append (s : Secret) (fs : FS) (pre : List (Call × ResetEnv)) (c : Call)
    (env : ResetEnv) :
    runCalls s fs (pre ++ [(c, env)])
      = (runCalls s fs pre).bind (fun fs1 => runCall s fs1 c env) := by
  induction pre generalizing fs with
  | nil =>
    simp only [List.nil_append, runCalls, Option.some_bind]
    cases runCall s fs c env <;> rfl
  | cons x rest ih =>
    obtain ⟨c1, env1⟩ := x
    simp only [List.cons_append, runCalls]
    cases runCall s fs c1 env1 with
    | none => rfl
    | some fs1 => exact ih fs1

theorem runCalls_fileOK {s : Secret} {fs fs1 : FS} {calls : List (Call × ResetEnv)}
    (h : s.fileOK fs) (hrun : runCalls s fs calls = some fs1) : s.fileOK fs1 := by
  induction calls generalizing fs with
  | nil =>
    simp only [runCalls] at hrun
    cases hrun
    exact h
  | cons x rest ih =>
    obtain ⟨c, env⟩ := x
    simp only [runCalls] at hrun
    cases hc : runCall s fs c env with
    | none => rw [hc] at hrun; cases hrun
    | some fs2 =>
      rw [hc] at hrun
      exact ih (runCall_fileOK h hc).1 hrun

/-- C5, as stated, fails. If `/tmp/testsecret` holds `hello`, a `Get` returns and
the file still holds `hello`, which is no decimal integer followed by a newline;
and on the empty file system a `Reset` whose entropy source fails returns (an
error) and leaves no file at all. -/
theorem secret_invariant_fails :
    (¬ ∀ (s : Secret) (fs0 : FS) (calls : List (Call × ResetEnv)) (fs1 : FS),
        calls ≠ [] → runCalls s fs0 calls = some fs1 →
        ∃ f, fs1 s.filename = some f ∧ wellFormed f.content = true)
      ∧ runCalls testSecret emptyFS [(Call.reset, noEntropyEnv)] = some emptyFS
      ∧ emptyFS testSecret.filename = none := by
  refine ⟨?_, rfl, rfl⟩
  intro h
  obtain ⟨f, hf, hw⟩ := h testSecret helloFS [(Call.get, calmEnv)] helloFS (by simp) rfl
  have hfile : helloFS testSecret.filename = some ⟨"hello".toList, 0o644⟩ := by decide
  rw [hfile] at hf
  cases hf
  revert hw
  decide

/-- C5, amended: if the file at `s.filename` is initially absent or holds decimal
digits followed by one newline and nothing else, then after every sequence of
`NewSecret`, `Get` and `Reset` calls on the secret in which every call returns,
the file is absent or holds decimal digits followed by one newline and nothing
else; and if the last call is a `NewSecret` or a `Get`, the file is present with
such content. -/
theorem secret_file_invariant (s : Secret) (fs0 fs1 : FS) (calls : List (Call × ResetEnv))
    (h0 : s.fileOK fs0) (hrun : runCalls s fs0 calls = some fs1) :
    s.fileOK fs1
      ∧ ∀ pre c env, calls = pre ++ [(c, env)] → c ≠ Call.reset →
          ∃ f, fs1 s.filename = some f ∧ wellFormed f.content = true := by
  have hok := runCalls_fileOK h0 hrun
  refine ⟨hok, ?_⟩
  intro pre c env hcalls hc
  rw [hcalls, runCalls_append] at hrun
  cases hpre : runCalls s fs0 pre with
  | none => rw [hpre] at hrun; cases hrun
  | some fs2 =>
    rw [hpre] at hrun
    obtain ⟨f, hf⟩ := (runCall_fileOK (runCalls_fileOK h0 hpre) hrun).2 hc
    exact ⟨f, hf, hok f hf⟩

/-- C5, amended, at a concrete run: on the empty file system a `NewSecret`, then a
`Reset` whose write fails, then a `Get`; afterwards `/tmp/testsecret` holds
`3919284771` and a newline. -/
theorem secret_file_invariant_witness :
    runCalls testSecret emptyFS
        [(Call.newSecret, calmEnv), (Call.reset, diskFullEnv), (Call.get, noEntropyEnv)]
        = some (testSecret.Reset (testSecret.Reset emptyFS calmEnv).2 diskFullEnv).2
      ∧ ∃ f, (testSecret.Reset (testSecret.Reset emptyFS calmEnv).2 diskFullEnv).2
            testSecret.filename = some f ∧ wellFormed f.content = true :=
  ⟨rfl, (secret_file_invariant testSecret emptyFS _
    [(Call.newSecret, calmEnv), (Call.reset, diskFullEnv), (Call.get, noEntropyEnv)]
    (fun f hf => by cases hf) rfl).2
    [(Call.newSecret, calmEnv), (Call.reset, diskFullEnv)] Call.get noEntropyEnv rfl
    (by decide)⟩

end Streamlist
